import Mathlib

/-!
Verification of the real-time chat microservice core against its design
specification.  The definitions below are a shallow embedding of:
  - the connection registry and broadcast dispatch (internal/ws/hub.go),
  - the conversation-identity helpers (pkg/models),
  - the message service guard paths (internal/service/chat.go),
  - the repository pagination and asynchronous save retry loop
    (internal/repository, Mongo-backed implementation).
Go maps from user id to a set of clients are embedded as association lists
with unique keys; byte-slice payloads are embedded as strings; timestamps
as naturals.
-/

set_option maxHeartbeats 1000000

namespace ChatCore

/-- A live websocket connection: `cid` distinguishes simultaneous
connections, `userID` is the owning participant (field `userID` of the Go
`Client`). -/
structure Client where
  cid : Nat
  userID : String
deriving DecidableEq, Repr

/-- The hub registry `clients : map[string]map[*Client]bool`, embedded as an
association list from user id to that user's set of live connections. -/
abbrev Registry := List (String × List Client)

/-- Go map lookup `h.clients[u]` with its `ok` flag. -/
def lookupReg : Registry → String → Option (List Client)
  | [], _ => none
  | (u, cs) :: rest, v => if u = v then some cs else lookupReg rest v

/-- All live connections of a participant (empty when the key is absent). -/
def connectionsFor (reg : Registry) (u : String) : List Client :=
  (lookupReg reg u).getD []

/-- Set insertion `userClients[client] = true`. -/
def insertClient (cs : List Client) (c : Client) : List Client :=
  if c ∈ cs then cs else cs ++ [c]

/-- `Hub.registerClient`: adds the connection under its user's entry,
creating the entry if absent. -/
def registerClient : Registry → Client → Registry
  | [], c => [(c.userID, [c])]
  | (u, cs) :: rest, c =>
    if u = c.userID then (u, insertClient cs c) :: rest
    else (u, cs) :: registerClient rest c

/-- `Hub.unregisterClient`: removes the connection if present under its
user's entry, pruning the entry when its set becomes empty; otherwise a
no-op. -/
def unregisterClient : Registry → Client → Registry
  | [], _ => []
  | (u, cs) :: rest, c =>
    if u = c.userID then
      if c ∈ cs then
        let cs1 := cs.erase c
        if cs1 = [] then rest else (u, cs1) :: rest
      else (u, cs) :: rest
    else (u, cs) :: unregisterClient rest c

/-- The Go `BroadcastMessage` struct: participant ids, serialized payload,
and the sender id used to exclude the sender. -/
structure BroadcastMessage where
  Participants : List String
  Message : String
  SenderID : String

/-- A `broadcastJob`: deliver this payload to this connection. -/
structure BroadcastJob where
  client : Client
  message : String
deriving DecidableEq, Repr

/-- `Hub.broadcastMessage`: for each participant except the sender, enqueue
one delivery job per live connection of that participant, in participant
order. -/
def broadcastMessage (reg : Registry) (bm : BroadcastMessage) : List BroadcastJob :=
  bm.Participants.foldr
    (fun p acc =>
      if p = bm.SenderID then acc
      else ((connectionsFor reg p).map (fun c => ⟨c, bm.Message⟩)) ++ acc)
    []

/-- Lexicographic sort of a string slice, the pure value computed by Go's
`sort.Strings`. -/
def sortStrings (l : List String) : List String :=
  List.insertionSort (fun a b => a ≤ b) l

/-- `models.CreateChannelID`: copy the participant slice, sort it, and join
with commas. -/
def CreateChannelID (participants : List String) : String :=
  String.intercalate "," (sortStrings participants)

/-- C2: the canonical channel identity is invariant under permutation of
the participant list: two participant lists containing the same identifiers
in any order canonicalize to the same identity. -/
theorem createChannelID_perm_invariant (l1 l2 : List String) (h : l1.Perm l2) :
    CreateChannelID l1 = CreateChannelID l2 := by
  unfold CreateChannelID sortStrings
  congr 1
  exact List.eq_of_perm_of_sorted
    (((List.perm_insertionSort _ l1).trans h).trans (List.perm_insertionSort _ l2).symm)
    (List.sorted_insertionSort _ l1) (List.sorted_insertionSort _ l2)

/-- Witness for C2 at a concrete permutation. -/
theorem createChannelID_perm_invariant_witness :
    CreateChannelID ["bob", "alice"] = CreateChannelID ["alice", "bob"] :=
  createChannelID_perm_invariant _ _ (by decide)

/-- Every stored connection set of the registry is nonempty (the pruning
invariant of `unregisterClient`). -/
def StoredSetsNonempty (reg : Registry) : Prop :=
  ∀ p ∈ reg, p.2 ≠ []

/-- Well-formed registry: keys are distinct (it embeds a Go map), stored
sets are duplicate-free and nonempty, and every connection is stored under
its own user id. -/
def WF (reg : Registry) : Prop :=
  (reg.map Prod.fst).Nodup ∧
    ∀ p ∈ reg, p.2.Nodup ∧ p.2 ≠ [] ∧ ∀ c ∈ p.2, c.userID = p.1

/-- A registry mutation: the two channels `Hub.Register` / `Hub.Unregister`
drained by `Hub.Run`. -/
inductive RegOp where
  | register (c : Client)
  | unregister (c : Client)

/-- Processing of one registry event by `Hub.Run`. -/
def applyOp (reg : Registry) : RegOp → Registry
  | .register c => registerClient reg c
  | .unregister c => unregisterClient reg c

/-- The registry after a finite event sequence starting from the empty
registry created by `NewHub`. -/
def applyOps (ops : List RegOp) : Registry :=
  ops.foldl applyOp []

theorem insertClient_ne_nil (cs : List Client) (c : Client) :
    insertClient cs c ≠ [] := by
  unfold insertClient
  split
  · rename_i hmem
    intro hnil
    rw [hnil] at hmem
    exact absurd hmem (List.not_mem_nil c)
  · simp

theorem lookupReg_mem {reg : Registry} {u : String} {cs : List Client}
    (h : lookupReg reg u = some cs) : (u, cs) ∈ reg := by
  induction reg with
  | nil => exact absurd h (by simp [lookupReg])
  | cons hd tl ih =>
    obtain ⟨v, ds⟩ := hd
    by_cases hv : v = u
    · subst hv
      have h2 : ds = cs := by simpa [lookupReg] using h
      subst h2
      exact List.mem_cons_self _ _
    · simp only [lookupReg, if_neg hv] at h
      exact List.mem_cons_of_mem _ (ih h)

theorem storedSetsNonempty_register (reg : Registry) (c : Client)
    (h : StoredSetsNonempty reg) : StoredSetsNonempty (registerClient reg c) := by
  induction reg with
  | nil =>
    intro p hp
    simp only [registerClient, List.mem_singleton] at hp
    subst hp
    simp
  | cons hd tl ih =>
    obtain ⟨u, cs⟩ := hd
    have htl : StoredSetsNonempty tl := fun p hp => h p (List.mem_cons_of_mem _ hp)
    by_cases hu : u = c.userID
    · intro p hp
      simp only [registerClient, if_pos hu] at hp
      rcases List.mem_cons.1 hp with hp | hp
      · subst hp; exact insertClient_ne_nil _ _
      · exact h p (List.mem_cons_of_mem _ hp)
    · intro p hp
      simp only [registerClient, if_neg hu] at hp
      rcases List.mem_cons.1 hp with hp | hp
      · subst hp; exact h (u, cs) (List.mem_cons_self _ _)
      · exact ih htl p hp

theorem storedSetsNonempty_unregister (reg : Registry) (c : Client)
    (h : StoredSetsNonempty reg) : StoredSetsNonempty (unregisterClient reg c) := by
  induction reg with
  | nil => intro p hp; exact absurd hp (List.not_mem_nil p)
  | cons hd tl ih =>
    obtain ⟨u, cs⟩ := hd
    have htl : StoredSetsNonempty tl := fun p hp => h p (List.mem_cons_of_mem _ hp)
    by_cases hu : u = c.userID
    · by_cases hmem : c ∈ cs
      · by_cases hnil : cs.erase c = []
        · intro p hp
          simp only [unregisterClient, if_pos hu, if_pos hmem, hnil, if_pos rfl] at hp
          exact htl p hp
        · intro p hp
          simp only [unregisterClient, if_pos hu, if_pos hmem, if_neg hnil] at hp
          rcases List.mem_cons.1 hp with hp | hp
          · subst hp; exact hnil
          · exact htl p hp
      · intro p hp
        simp only [unregisterClient, if_pos hu, if_neg hmem] at hp
        exact h p hp
    · intro p hp
      simp only [unregisterClient, if_neg hu] at hp
      rcases List.mem_cons.1 hp with hp | hp
      · subst hp; exact h (u, cs) (List.mem_cons_self _ _)
      · exact ih htl p hp

theorem storedSetsNonempty_applyOps (ops : List RegOp) :
    ∀ reg, StoredSetsNonempty reg → StoredSetsNonempty (ops.foldl applyOp reg) := by
  induction ops with
  | nil => intro reg h; exact h
  | cons op rest ih =>
    intro reg h
    refine ih (applyOp reg op) ?_
    cases op with
    | register c => exact storedSetsNonempty_register reg c h
    | unregister c => exact storedSetsNonempty_unregister reg c h

/-- C3: after any finite sequence of register/unregister events starting
from the empty registry, a participant id is a key of the mapping iff that
participant has at least one live connection; in particular, removing a
participant's last connection removes its entry. -/
theorem registry_key_iff_live_connection (ops : List RegOp) (u : String) :
    (∃ cs, lookupReg (applyOps ops) u = some cs) ↔
      connectionsFor (applyOps ops) u ≠ [] := by
  have hne : StoredSetsNonempty (applyOps ops) :=
    storedSetsNonempty_applyOps ops [] (fun p hp => absurd hp (List.not_mem_nil p))
  cases hl : lookupReg (applyOps ops) u with
  | none => simp [connectionsFor, hl]
  | some cs =>
    have hmem : (u, cs) ∈ applyOps ops := lookupReg_mem hl
    have hcs : cs ≠ [] := hne (u, cs) hmem
    simp [connectionsFor, hl, hcs]

theorem connectionsFor_cons_self (u : String) (cs : List Client)
    (tl : Registry) : connectionsFor ((u, cs) :: tl) u = cs := by
  simp [connectionsFor, lookupReg]

theorem connectionsFor_cons_ne (u v : String) (cs : List Client)
    (tl : Registry) (h : u ≠ v) :
    connectionsFor ((u, cs) :: tl) v = connectionsFor tl v := by
  simp [connectionsFor, lookupReg, h]

theorem lookupReg_none_of_not_key (reg : Registry) (u : String)
    (h : u ∉ reg.map Prod.fst) : lookupReg reg u = none := by
  induction reg with
  | nil => rfl
  | cons hd tl ih =>
    obtain ⟨v, ds⟩ := hd
    simp only [List.map_cons, List.mem_cons, not_or] at h
    have hv : v ≠ u := fun hvu => h.1 hvu.symm
    simp only [lookupReg, if_neg hv]
    exact ih h.2

theorem unregister_not_mem_noop (reg : Registry) (c : Client)
    (h : c ∉ connectionsFor reg c.userID) : unregisterClient reg c = reg := by
  induction reg with
  | nil => rfl
  | cons hd tl ih =>
    obtain ⟨u, cs⟩ := hd
    by_cases hu : u = c.userID
    · subst hu
      rw [connectionsFor_cons_self] at h
      simp [unregisterClient, h]
    · have h2 : c ∉ connectionsFor tl c.userID := by
        rw [connectionsFor_cons_ne u c.userID cs tl hu] at h
        exact h
      simp [unregisterClient, hu, ih h2]

theorem wf_tail {u : String} {cs : List Client} {tl : Registry}
    (h : WF ((u, cs) :: tl)) : WF tl := by
  obtain ⟨hkeys, hall⟩ := h
  exact ⟨(List.nodup_cons.1 hkeys).2,
    fun p hp => hall p (List.mem_cons_of_mem _ hp)⟩

theorem unregister_idem (reg : Registry) (hwf : WF reg) (d : Client) :
    unregisterClient (unregisterClient reg d) d = unregisterClient reg d := by
  induction reg with
  | nil => rfl
  | cons hd tl ih =>
    obtain ⟨u, cs⟩ := hd
    obtain ⟨hkeys, hall⟩ := hwf
    have hcs : cs.Nodup := (hall (u, cs) (List.mem_cons_self _ _)).1
    have hu_notin : u ∉ tl.map Prod.fst := (List.nodup_cons.1 hkeys).1
    have hwftl : WF tl := wf_tail ⟨hkeys, hall⟩
    by_cases hu : u = d.userID
    · by_cases hmem : d ∈ cs
      · by_cases hnil : cs.erase d = []
        · have h1 : unregisterClient ((u, cs) :: tl) d = tl := by
            simp [unregisterClient, hu, hmem, hnil]
          rw [h1]
          refine unregister_not_mem_noop tl d ?_
          have : lookupReg tl d.userID = none := by
            refine lookupReg_none_of_not_key tl d.userID ?_
            rw [← hu]; exact hu_notin
          simp [connectionsFor, this]
        · have h1 : unregisterClient ((u, cs) :: tl) d = (u, cs.erase d) :: tl := by
            simp [unregisterClient, hu, hmem, hnil]
          rw [h1]
          have hnm : d ∉ cs.erase d := hcs.not_mem_erase
          simp [unregisterClient, hu, hnm]
      · have h1 : unregisterClient ((u, cs) :: tl) d = (u, cs) :: tl := by
          simp [unregisterClient, hu, hmem]
        rw [h1, h1]
    · have h1 : unregisterClient ((u, cs) :: tl) d = (u, cs) :: unregisterClient tl d := by
        simp [unregisterClient, hu]
      rw [h1]
      have h2 : unregisterClient ((u, cs) :: unregisterClient tl d) d
          = (u, cs) :: unregisterClient (unregisterClient tl d) d := by
        simp [unregisterClient, hu]
      rw [h2, ih hwftl]

/-- C7: unregistering a connection that is not present is a no-op on the
registry (and signals no error, the operation being total); consequently
unregistering the same connection twice equals unregistering it once. -/
theorem unregister_absent_noop_and_idempotent (reg : Registry) (c : Client)
    (hwf : WF reg) (habs : c ∉ connectionsFor reg c.userID) :
    unregisterClient reg c = reg ∧
      ∀ d : Client, unregisterClient (unregisterClient reg d) d
        = unregisterClient reg d :=
  ⟨unregister_not_mem_noop reg c habs, fun d => unregister_idem reg hwf d⟩

/-- Witness registry for the registry theorems: alice with one connection,
bob with two. -/
def regW : Registry :=
  [("alice", [⟨0, "alice"⟩]), ("bob", [⟨1, "bob"⟩, ⟨2, "bob"⟩])]

/-- Witness for C7 at a concrete registry and absent connection. -/
theorem unregister_absent_noop_and_idempotent_witness :
    unregisterClient regW ⟨7, "carol"⟩ = regW ∧
      ∀ d : Client, unregisterClient (unregisterClient regW d) d
        = unregisterClient regW d :=
  unregister_absent_noop_and_idempotent regW ⟨7, "carol"⟩
    (by simp only [WF]; decide) (by decide)

theorem wf_userID_of_mem_connectionsFor {reg : Registry} {p : String}
    {c : Client} (hwf : WF reg) (h : c ∈ connectionsFor reg p) :
    c.userID = p := by
  unfold connectionsFor at h
  cases hl : lookupReg reg p with
  | none => rw [hl] at h; simp at h
  | some cs =>
    rw [hl] at h
    simp only [Option.getD_some] at h
    exact (hwf.2 (p, cs) (lookupReg_mem hl)).2.2 c h

theorem wf_connectionsFor_nodup {reg : Registry} (p : String)
    (hwf : WF reg) : (connectionsFor reg p).Nodup := by
  unfold connectionsFor
  cases hl : lookupReg reg p with
  | none => simp
  | some cs =>
    simp only [Option.getD_some]
    exact (hwf.2 (p, cs) (lookupReg_mem hl)).1

theorem broadcast_cons (reg : Registry) (p : String) (l : List String)
    (msg sender : String) :
    broadcastMessage reg ⟨p :: l, msg, sender⟩
      = if p = sender then broadcastMessage reg ⟨l, msg, sender⟩
        else ((connectionsFor reg p).map (fun c => ⟨c, msg⟩))
          ++ broadcastMessage reg ⟨l, msg, sender⟩ := rfl

theorem count_broadcast (reg : Registry) (hwf : WF reg) (msg sender : String)
    (l : List String) (c : Client) : l.Nodup →
    ((broadcastMessage reg ⟨l, msg, sender⟩).map BroadcastJob.client).count c
      = if c.userID ≠ sender ∧ c.userID ∈ l ∧ c ∈ connectionsFor reg c.userID
        then 1 else 0 := by
  induction l with
  | nil => intro _; simp [broadcastMessage]
  | cons p l ih =>
    intro hnd
    have hpl : p ∉ l := (List.nodup_cons.1 hnd).1
    have hltl : l.Nodup := (List.nodup_cons.1 hnd).2
    rw [broadcast_cons]
    by_cases hps : p = sender
    · rw [if_pos hps, ih hltl]
      have hiff : (c.userID ≠ sender ∧ c.userID ∈ p :: l
            ∧ c ∈ connectionsFor reg c.userID)
          ↔ (c.userID ≠ sender ∧ c.userID ∈ l
            ∧ c ∈ connectionsFor reg c.userID) := by
        constructor
        · rintro ⟨h1, h2, h3⟩
          rcases List.mem_cons.1 h2 with h2 | h2
          · exact absurd (h2.trans hps) h1
          · exact ⟨h1, h2, h3⟩
        · rintro ⟨h1, h2, h3⟩
          exact ⟨h1, List.mem_cons_of_mem _ h2, h3⟩
      rw [if_congr hiff rfl rfl]
    · rw [if_neg hps, List.map_append, List.count_append, List.map_map]
      have hcomp : (BroadcastJob.client ∘ fun x => BroadcastJob.mk x msg)
          = id := rfl
      rw [hcomp, List.map_id, ih hltl]
      by_cases hcm : c ∈ connectionsFor reg p
      · have hcu : c.userID = p := wf_userID_of_mem_connectionsFor hwf hcm
        rw [List.count_eq_one_of_mem (wf_connectionsFor_nodup p hwf) hcm]
        have hifR : c.userID ≠ sender ∧ c.userID ∈ p :: l
            ∧ c ∈ connectionsFor reg c.userID := by
          refine ⟨by rw [hcu]; exact hps, by rw [hcu]; exact List.mem_cons_self _ _, ?_⟩
          rw [hcu]; exact hcm
        have hifL : ¬(c.userID ≠ sender ∧ c.userID ∈ l
            ∧ c ∈ connectionsFor reg c.userID) := by
          rintro ⟨-, hmem, -⟩
          rw [hcu] at hmem
          exact hpl hmem
        rw [if_neg hifL, if_pos hifR]
      · rw [List.count_eq_zero_of_not_mem hcm, Nat.zero_add]
        have hiff : (c.userID ≠ sender ∧ c.userID ∈ p :: l
              ∧ c ∈ connectionsFor reg c.userID)
            ↔ (c.userID ≠ sender ∧ c.userID ∈ l
              ∧ c ∈ connectionsFor reg c.userID) := by
          constructor
          · rintro ⟨h1, h2, h3⟩
            rcases List.mem_cons.1 h2 with h2 | h2
            · exact absurd (h2 ▸ h3) hcm
            · exact ⟨h1, h2, h3⟩
          · rintro ⟨h1, h2, h3⟩
            exact ⟨h1, List.mem_cons_of_mem _ h2, h3⟩
        rw [if_congr hiff rfl rfl]

/-- C1: for a dispatched message over a well-formed registry and a
duplicate-free participant list, the number of delivery jobs enqueued for
any connection is one when the connection belongs to a non-sender
participant of the message and is live, and zero otherwise — in particular
zero for every connection of the sender and zero enqueues for participants
with no live connection.  `broadcastMessage` is total, so the dispatch
completes without error. -/
theorem broadcast_one_job_per_live_connection (reg : Registry)
    (bm : BroadcastMessage) (hwf : WF reg) (hnd : bm.Participants.Nodup)
    (c : Client) :
    ((broadcastMessage reg bm).map BroadcastJob.client).count c
      = if c.userID ≠ bm.SenderID ∧ c.userID ∈ bm.Participants
            ∧ c ∈ connectionsFor reg c.userID
        then 1 else 0 := by
  obtain ⟨l, msg, sender⟩ := bm
  exact count_broadcast reg hwf msg sender l c hnd

/-- Witness broadcast for C1: alice sends to {alice, bob, carol}. -/
def bmW : BroadcastMessage :=
  ⟨["alice", "bob", "carol"], "hi", "alice"⟩

/-- Witness for C1: bob's first connection receives exactly one job. -/
theorem broadcast_one_job_per_live_connection_witness :
    ((broadcastMessage regW bmW).map BroadcastJob.client).count ⟨1, "bob"⟩ = 1 :=
  (broadcast_one_job_per_live_connection regW bmW
    (by simp only [WF]; decide) (by decide) ⟨1, "bob"⟩).trans (by decide)

/-- Outbound buffers: the contents of each connection's bounded `send`
channel. -/
abbrev Buffers := Client → List String

/-- One iteration of `Hub.broadcastWorker` on one delivery job: the
non-blocking channel send (`select` with a `default` branch).  If the
target buffer has room the payload is appended; otherwise the state is
untouched and one unregister request for the job's connection is emitted.
The function is a single attempt — there is no wait and no retry. -/
def workerStep (cap : Nat) (bufs : Buffers) (job : BroadcastJob) :
    Buffers × List Client :=
  if (bufs job.client).length < cap then
    (fun c => if c = job.client then bufs c ++ [job.message] else bufs c, [])
  else (bufs, [job.client])

/-- A dispatch worker draining a queue of delivery jobs, accumulating the
unregister requests sent to `Hub.Unregister`. -/
def workerRun (cap : Nat) (bufs : Buffers) (jobs : List BroadcastJob) :
    Buffers × List Client :=
  jobs.foldl (fun st job =>
    ((workerStep cap st.1 job).1, st.2 ++ (workerStep cap st.1 job).2))
    (bufs, [])

theorem workerRun_acc (cap : Nat) (jobs : List BroadcastJob) :
    ∀ (bufs : Buffers) (regs : List Client),
      jobs.foldl (fun st job =>
          ((workerStep cap st.1 job).1, st.2 ++ (workerStep cap st.1 job).2))
        (bufs, regs)
      = ((workerRun cap bufs jobs).1, regs ++ (workerRun cap bufs jobs).2) := by
  induction jobs with
  | nil => intro bufs regs; simp [workerRun]
  | cons j js ih =>
    intro bufs regs
    simp only [workerRun, List.foldl_cons]
    rw [ih (workerStep cap bufs j).1 (regs ++ (workerStep cap bufs j).2),
      ih (workerStep cap bufs j).1 ([] ++ (workerStep cap bufs j).2)]
    simp [List.append_assoc]

/-- C4: a delivery job whose target buffer is full writes nothing (the
buffer state seen by every remaining job is unchanged, so delivery to
other connections is unaffected), is never retried (the queue of remaining
jobs is exactly `jobs`), and contributes exactly one immediate unregister
request for its connection.  `workerStep` performs the single non-blocking
attempt, so no blocking wait occurs. -/
theorem worker_full_buffer_unregisters (cap : Nat) (bufs : Buffers)
    (j : BroadcastJob) (jobs : List BroadcastJob)
    (hfull : cap ≤ (bufs j.client).length) :
    workerRun cap bufs (j :: jobs)
      = ((workerRun cap bufs jobs).1,
          j.client :: (workerRun cap bufs jobs).2) := by
  have hstep : workerStep cap bufs j = (bufs, [j.client]) := by
    unfold workerStep
    rw [if_neg (Nat.not_lt.2 hfull)]
  simp only [workerRun, List.foldl_cons]
  rw [hstep]
  simpa [workerRun] using workerRun_acc cap jobs bufs [j.client]

/-- Witness buffers for C4: bob's first connection has a full buffer at
capacity one. -/
def bufsW : Buffers :=
  fun c => if c = ⟨1, "bob"⟩ then ["old"] else []

/-- Witness for C4 at capacity one with one other pending job. -/
theorem worker_full_buffer_unregisters_witness :
    workerRun 1 bufsW (⟨⟨1, "bob"⟩, "hi"⟩ :: [⟨⟨2, "bob"⟩, "hi"⟩])
      = ((workerRun 1 bufsW [⟨⟨2, "bob"⟩, "hi"⟩]).1,
          Client.mk 1 "bob" :: (workerRun 1 bufsW [⟨⟨2, "bob"⟩, "hi"⟩]).2) :=
  worker_full_buffer_unregisters 1 bufsW ⟨⟨1, "bob"⟩, "hi"⟩
    [⟨⟨2, "bob"⟩, "hi"⟩] (by decide)

/-- `models.ContainsUser`: linear scan for the user in the participant
slice. -/
def ContainsUser : List String → String → Bool
  | [], _ => false
  | p :: ps, userID => if p = userID then true else ContainsUser ps userID

theorem containsUser_eq_false {ps : List String} {u : String}
    (h : u ∉ ps) : ContainsUser ps u = false := by
  induction ps with
  | nil => rfl
  | cons p ps ih =>
    simp only [List.mem_cons, not_or] at h
    have hp : p ≠ u := fun hpu => h.1 hpu.symm
    simp only [ContainsUser, if_neg hp]
    exact ih h.2

/-- A persisted message: creation timestamp (as a natural), the sorted
participant key, and the content. -/
structure StoredMessage where
  createdAt : Nat
  participants : List String
  content : String
deriving DecidableEq, Repr

/-- Descending creation-time order, the `created_at: -1` sort of the Mongo
queries. -/
def createdDesc (a b : StoredMessage) : Prop :=
  b.createdAt ≤ a.createdAt

instance : DecidableRel createdDesc :=
  fun a b => inferInstanceAs (Decidable (b.createdAt ≤ a.createdAt))

instance : IsTotal StoredMessage createdDesc :=
  ⟨fun a b => Nat.le_total b.createdAt a.createdAt⟩

instance : IsTrans StoredMessage createdDesc :=
  ⟨fun _ _ _ hab hbc => Nat.le_trans hbc hab⟩

/-- The store's result order: latest first. -/
def sortByCreatedDesc (msgs : List StoredMessage) : List StoredMessage :=
  List.insertionSort createdDesc msgs

/-- The documents matched by the filter `{participants: sorted}`. -/
def matchingMessages (store : List StoredMessage)
    (participants : List String) : List StoredMessage :=
  store.filter (fun m => decide (m.participants = sortStrings participants))

/-- `MongoRepository.GetMessagesByParticipants`: sort the participant key,
filter for the exact key, return newest first. -/
def GetMessagesByParticipants (store : List StoredMessage)
    (participants : List String) : List StoredMessage :=
  sortByCreatedDesc (matchingMessages store participants)

/-- `MongoRepository.GetMessagesByParticipantsWithPagination`: as above
with `skip (size * page)` and `limit size`. -/
def GetMessagesByParticipantsWithPagination (store : List StoredMessage)
    (participants : List String) (page size : Nat) : List StoredMessage :=
  ((sortByCreatedDesc (matchingMessages store participants)).drop
    (size * page)).take size

theorem pages_join (size n : Nat) : ∀ (l : List StoredMessage),
    l.length ≤ n * size →
    (List.range n).flatMap (fun p => (l.drop (size * p)).take size) = l := by
  induction n with
  | zero =>
    intro l h
    simp only [Nat.zero_mul, Nat.le_zero, List.length_eq_zero] at h
    simp [h]
  | succ n ih =>
    intro l h
    rw [List.range_succ_eq_map, List.flatMap_cons, List.flatMap_map]
    have hdrop : ∀ p : Nat,
        ((l.drop (size * (p + 1))).take size)
          = (((l.drop size).drop (size * p)).take size) := by
      intro p
      rw [List.drop_drop]
      congr 2
      ring
    have hbind :
        (List.range n).flatMap (fun p => (l.drop (size * (p + 1))).take size)
          = (List.range n).flatMap
              (fun p => (((l.drop size).drop (size * p)).take size)) := by
      refine List.flatMap_congr ?_
      intro p _
      exact hdrop p
    have hlen : (l.drop size).length ≤ n * size := by
      rw [List.length_drop]
      have : (n + 1) * size = n * size + size := by ring
      omega
    calc (l.drop (size * 0)).take size
          ++ (List.range n).flatMap (fun p => (l.drop (size * (p + 1))).take size)
        = l.take size
          ++ (List.range n).flatMap
              (fun p => (((l.drop size).drop (size * p)).take size)) := by
          rw [hbind]; simp
      _ = l.take size ++ l.drop size := by rw [ih (l.drop size) hlen]
      _ = l := List.take_append_drop size l

/-- C6: over any store, the paginated history query returns windows of the
descending-creation-time ordering of the matching messages: page `p`
(zero-indexed) is the window at offset `p × size` of at most `size`
messages, each page is sorted newest first, and when `n` pages cover the
matching messages the concatenation of pages `0..n-1` is exactly the full
descending sequence — no duplicate and no missing message. -/
theorem pagination_pages_partition_desc (store : List StoredMessage)
    (participants : List String) (size n : Nat)
    (hcover : (matchingMessages store participants).length ≤ n * size) :
    ((List.range n).flatMap (fun p =>
        GetMessagesByParticipantsWithPagination store participants p size))
      = sortByCreatedDesc (matchingMessages store participants)
    ∧ (∀ p, List.Sorted createdDesc
        (GetMessagesByParticipantsWithPagination store participants p size))
    ∧ (∀ p, (GetMessagesByParticipantsWithPagination store
        participants p size).length ≤ size)
    ∧ (∀ p, GetMessagesByParticipantsWithPagination store participants p size
        = ((sortByCreatedDesc (matchingMessages store participants)).drop
            (p * size)).take size) := by
  refine ⟨?_, ?_, ?_, ?_⟩
  · exact pages_join size n (sortByCreatedDesc (matchingMessages store participants))
      (by simpa [sortByCreatedDesc,
        (List.perm_insertionSort createdDesc (matchingMessages store participants)).length_eq]
        using hcover)
  · intro p
    have hs : List.Sorted createdDesc
        (sortByCreatedDesc (matchingMessages store participants)) :=
      List.sorted_insertionSort createdDesc _
    have hsub :
        List.Sublist
          (GetMessagesByParticipantsWithPagination store participants p size)
          (sortByCreatedDesc (matchingMessages store participants)) := by
      unfold GetMessagesByParticipantsWithPagination
      exact (List.take_sublist _ _).trans (List.drop_sublist _ _)
    exact List.Pairwise.sublist hsub hs
  · intro p
    exact List.length_take_le _ _
  · intro p
    unfold GetMessagesByParticipantsWithPagination
    rw [Nat.mul_comm]

/-- Witness store for C6: five messages in one conversation keyed by the
singleton participant list. -/
def storeW : List StoredMessage :=
  [⟨1, ["alice"], "m1"⟩, ⟨2, ["alice"], "m2"⟩, ⟨3, ["alice"], "m3"⟩,
   ⟨4, ["alice"], "m4"⟩, ⟨5, ["alice"], "m5"⟩]

/-- Witness for C6: three pages of size two cover the five messages. -/
theorem pagination_pages_partition_desc_witness :
    ((List.range 3).flatMap (fun p =>
        GetMessagesByParticipantsWithPagination storeW ["alice"] p 2))
      = sortByCreatedDesc (matchingMessages storeW ["alice"])
    ∧ (∀ p, List.Sorted createdDesc
        (GetMessagesByParticipantsWithPagination storeW ["alice"] p 2))
    ∧ (∀ p, (GetMessagesByParticipantsWithPagination storeW
        ["alice"] p 2).length ≤ 2)
    ∧ (∀ p, GetMessagesByParticipantsWithPagination storeW ["alice"] p 2
        = ((sortByCreatedDesc (matchingMessages storeW ["alice"])).drop
            (p * 2)).take 2) :=
  pagination_pages_partition_desc storeW ["alice"] 2 3 (by decide)

/-- Result of a service history call: the returned slice, the returned
error, and whether the repository was queried at all. -/
structure ServiceResult where
  messages : List StoredMessage
  error : Option String
  queriedStore : Bool
deriving DecidableEq, Repr

/-- `ChatService.GetMessagesForChannel`: participant-membership guard, then
sort and query the repository. -/
def GetMessagesForChannel (store : List StoredMessage)
    (participants : List String) (userID : String) : ServiceResult :=
  if ¬ ContainsUser participants userID then ⟨[], none, false⟩
  else ⟨GetMessagesByParticipants store (sortStrings participants), none, true⟩

/-- `ChatService.GetMessagesForChannelWithPagination`: same guard, then the
paginated repository query. -/
def GetMessagesForChannelWithPagination (store : List StoredMessage)
    (participants : List String) (userID : String)
    (page size : Nat) : ServiceResult :=
  if ¬ ContainsUser participants userID then ⟨[], none, false⟩
  else ⟨GetMessagesByParticipantsWithPagination store (sortStrings participants)
    page size, none, true⟩

/-- C10: when the requesting user is not an element of the participant
list, both history operations return an empty message list and no error,
and do not query the store. -/
theorem history_nonmember_empty_no_query (store : List StoredMessage)
    (participants : List String) (userID : String) (page size : Nat)
    (h : userID ∉ participants) :
    GetMessagesForChannel store participants userID = ⟨[], none, false⟩
    ∧ GetMessagesForChannelWithPagination store participants userID page size
      = ⟨[], none, false⟩ := by
  have hc : ContainsUser participants userID = false := containsUser_eq_false h
  constructor
  · simp [GetMessagesForChannel, hc]
  · simp [GetMessagesForChannelWithPagination, hc]

/-- Witness for C10: carol is not a participant of the alice-bob
conversation. -/
theorem history_nonmember_empty_no_query_witness :
    GetMessagesForChannel storeW ["alice", "bob"] "carol" = ⟨[], none, false⟩
    ∧ GetMessagesForChannelWithPagination storeW ["alice", "bob"] "carol" 0 10
      = ⟨[], none, false⟩ :=
  history_nonmember_empty_no_query storeW ["alice", "bob"] "carol" 0 10
    (by decide)

/-- Observable outcome of one `SaveAsync` goroutine: how many `Save`
attempts ran, whether one succeeded, the sleeps performed between attempts
(in milliseconds), and whether the final loud failure record was written
after exhausting all attempts. -/
structure SaveTrace where
  attempts : Nat
  success : Bool
  sleeps : List Nat
  droppedLog : Bool
deriving DecidableEq, Repr

/-- The fixed base delay of the retry loop: `100 * time.Millisecond`. -/
def baseDelayMs : Nat := 100

/-- The retry loop of `MongoRepository.SaveAsync`, parameterized by an
oracle `ok` telling whether the save attempt with index `n` succeeds.
`attempt` is the index of the next attempt, the second argument the number
of attempts still allowed (`maxRetries - attempt + 1`).  Mirrors:
`for attempt := 1; attempt <= maxRetries; attempt++ { if save ok, return;
log; if attempt < maxRetries { sleep(attempt * 100ms) } }; log final`. -/
def saveLoop (ok : Nat → Bool) : Nat → Nat → SaveTrace
  | _, 0 => ⟨0, false, [], true⟩
  | attempt, r + 1 =>
    if ok attempt then ⟨1, true, [], false⟩
    else
      let rest := saveLoop ok (attempt + 1) r
      ⟨1 + rest.attempts, rest.success,
        (if r ≠ 0 then [attempt * baseDelayMs] else []) ++ rest.sleeps,
        rest.droppedLog⟩

/-- The whole `SaveAsync(msg, maxRetries)` retry lifecycle: attempts are
numbered from 1. -/
def SaveAsyncTrace (ok : Nat → Bool) (maxRetries : Nat) : SaveTrace :=
  saveLoop ok 1 maxRetries

theorem saveLoop_spec (ok : Nat → Bool) (r : Nat) : ∀ start : Nat,
    (match (List.range' start r).find? ok with
     | some k =>
         (saveLoop ok start r).attempts = k + 1 - start
           ∧ (saveLoop ok start r).success = true
           ∧ (saveLoop ok start r).droppedLog = false
     | none =>
         (saveLoop ok start r).attempts = r
           ∧ (saveLoop ok start r).success = false
           ∧ (saveLoop ok start r).droppedLog = true)
    ∧ (saveLoop ok start r).sleeps
        = (List.range' start ((saveLoop ok start r).attempts - 1)).map
            (fun m => m * baseDelayMs) := by
  induction r with
  | zero =>
    intro start
    simp [saveLoop]
  | succ r ih =>
    intro start
    rw [List.range'_succ]
    by_cases hok : ok start
    · rw [List.find?_cons_of_pos _ hok]
      simp only [saveLoop, if_pos hok]
      refine ⟨⟨by omega, by trivial, by trivial⟩, by simp⟩
    · rw [List.find?_cons_of_neg _ hok]
      simp only [saveLoop, if_neg hok]
      obtain ⟨ih1, ih2⟩ := ih (start + 1)
      cases hf : (List.range' (start + 1) r).find? ok with
      | some k =>
        rw [hf] at ih1
        obtain ⟨ha, hs, hd⟩ := ih1
        have hk : start + 1 ≤ k ∧ k < start + 1 + r := by
          have hmem := List.mem_of_find?_eq_some hf
          rw [List.mem_range'] at hmem
          obtain ⟨i, hi, hieq⟩ := hmem
          omega
        have hrne : r ≠ 0 := by omega
        refine ⟨⟨by simp only [ha]; omega, hs, hd⟩, ?_⟩
        simp only [ha, if_pos hrne, ih2, ha]
        have h1 : 1 + (k + 1 - (start + 1)) - 1 = (k - start - 1) + 1 := by omega
        have h2 : k + 1 - (start + 1) - 1 = k - start - 1 := by omega
        rw [h1, h2, List.range'_succ, List.map_cons]
        rfl
      | none =>
        rw [hf] at ih1
        obtain ⟨ha, hs, hd⟩ := ih1
        refine ⟨⟨by omega, hs, hd⟩, ?_⟩
        by_cases hr : r = 0
        · subst hr
          simp [saveLoop, ha]
        · simp only [ha, if_pos hr, ih2, ha]
          have h1 : 1 + r - 1 = (r - 1) + 1 := by omega
          rw [h1, List.range'_succ, List.map_cons]
          rfl

/-- C5: for every outcome oracle and configured maximum attempt count `N`:
at most `N` save attempts run; if `k` is the first attempt in `1..N` to
succeed, the job completes at attempt `k` with no failure record; the
sleeps performed are exactly `1·d, 2·d, …` for the failed attempts before
the next one — the wait after attempt `n` is `n × baseDelay`, linear and
unjittered; and when all `N` attempts fail, exactly `N` attempts ran, the
loud failure record is written, and the trace ends (the job is never
retried again). -/
theorem saveAsync_linear_bounded_retry (ok : Nat → Bool) (N : Nat) :
    (SaveAsyncTrace ok N).attempts ≤ N
    ∧ (SaveAsyncTrace ok N).sleeps
        = (List.range' 1 ((SaveAsyncTrace ok N).attempts - 1)).map
            (fun m => m * baseDelayMs)
    ∧ (match (List.range' 1 N).find? ok with
       | some k =>
           (SaveAsyncTrace ok N).attempts = k
             ∧ (SaveAsyncTrace ok N).success = true
             ∧ (SaveAsyncTrace ok N).droppedLog = false
       | none =>
           (SaveAsyncTrace ok N).attempts = N
             ∧ (SaveAsyncTrace ok N).success = false
             ∧ (SaveAsyncTrace ok N).droppedLog = true) := by
  obtain ⟨h1, h2⟩ := saveLoop_spec ok N 1
  refine ⟨?_, h2, ?_⟩
  · cases hf : (List.range' 1 N).find? ok with
    | some k =>
      rw [hf] at h1
      have hk : 1 ≤ k ∧ k < 1 + N := by
        have hmem := List.mem_of_find?_eq_some hf
        rw [List.mem_range'] at hmem
        obtain ⟨i, hi, hieq⟩ := hmem
        omega
      have := h1.1
      unfold SaveAsyncTrace
      omega
    | none =>
      rw [hf] at h1
      have := h1.1
      unfold SaveAsyncTrace
      omega
  · cases hf : (List.range' 1 N).find? ok with
    | some k =>
      rw [hf] at h1
      have hk : 1 ≤ k ∧ k < 1 + N := by
        have hmem := List.mem_of_find?_eq_some hf
        rw [List.mem_range'] at hmem
        obtain ⟨i, hi, hieq⟩ := hmem
        omega
      exact ⟨by have := h1.1; unfold SaveAsyncTrace; omega, h1.2.1, h1.2.2⟩
    | none =>
      rw [hf] at h1
      exact h1

/-- A heap of string slices, indexed by allocation order; models Go slice
backing arrays so that in-place mutation is observable. -/
abbrev SliceHeap := List (List String)

/-- Read the slice behind a reference. -/
def heapGet (h : SliceHeap) (r : Nat) : List String :=
  h.getD r []

/-- Overwrite the slice behind a reference. -/
def heapSet (h : SliceHeap) (r : Nat) (v : List String) : SliceHeap :=
  h.set r v

/-- `make([]string, n)` style allocation: a fresh cell, returning the new
heap and the fresh reference. -/
def allocSlice (h : SliceHeap) (v : List String) : SliceHeap × Nat :=
  (h ++ [v], h.length)

/-- `sort.Strings(xs)`: in-place sort of the slice behind `r`. -/
def sortStringsInPlace (h : SliceHeap) (r : Nat) : SliceHeap :=
  heapSet h r (sortStrings (heapGet h r))

/-- `models.CreateChannelID` with explicit slice mutation, statement by
statement: `sorted := make([]string, len(participants))`,
`copy(sorted, participants)`, `sort.Strings(sorted)`,
`return strings.Join(sorted, ",")`. -/
def CreateChannelIDHeap (h : SliceHeap) (r : Nat) : SliceHeap × String :=
  let a := allocSlice h (List.replicate (heapGet h r).length "")
  let h2 := heapSet a.1 a.2 (heapGet a.1 r)
  let h3 := sortStringsInPlace h2 a.2
  (h3, String.intercalate "," (heapGet h3 a.2))

theorem heapGet_append_lt (h : SliceHeap) (x : List String) :
    ∀ j, j < h.length → heapGet (h ++ [x]) j = heapGet h j := by
  induction h with
  | nil => intro j hj; exact absurd hj (Nat.not_lt_zero j)
  | cons y ys ih =>
    intro j hj
    cases j with
    | zero => rfl
    | succ j =>
      simp only [List.cons_append]
      show heapGet (ys ++ [x]) j = heapGet ys j
      exact ih j (Nat.lt_of_succ_lt_succ hj)

theorem heapGet_append_len (h : SliceHeap) (x : List String) :
    heapGet (h ++ [x]) h.length = x := by
  induction h with
  | nil => rfl
  | cons y ys ih =>
    simp only [List.cons_append, List.length_cons]
    show heapGet (ys ++ [x]) ys.length = x
    exact ih

theorem heapSet_append_len (h : SliceHeap) (x v : List String) :
    heapSet (h ++ [x]) h.length v = h ++ [v] := by
  induction h with
  | nil => rfl
  | cons y ys ih =>
    simp only [List.cons_append, List.length_cons]
    show y :: heapSet (ys ++ [x]) ys.length v = y :: (ys ++ [v])
    rw [ih]

/-- C8: canonicalization does not mutate the caller's slice: after
`CreateChannelIDHeap`, every cell that existed before the call — the input
slice included — holds exactly its old value (the sort runs on a fresh
copy), and the returned identity is the pure `CreateChannelID` of the
input value, so the operation has no other side effect. -/
theorem createChannelID_no_mutation (h : SliceHeap) (r : Nat)
    (hr : r < h.length) :
    (∀ j, j < h.length →
        heapGet (CreateChannelIDHeap h r).1 j = heapGet h j)
    ∧ (CreateChannelIDHeap h r).2 = CreateChannelID (heapGet h r) := by
  have hcopy : heapGet (h ++ [List.replicate (heapGet h r).length ""]) r
      = heapGet h r := heapGet_append_lt h _ r hr
  have hset : heapSet (h ++ [List.replicate (heapGet h r).length ""])
      h.length (heapGet h r) = h ++ [heapGet h r] :=
    heapSet_append_len h _ _
  have hget2 : heapGet (h ++ [heapGet h r]) h.length = heapGet h r :=
    heapGet_append_len h _
  have hset2 : heapSet (h ++ [heapGet h r]) h.length
      (sortStrings (heapGet h r)) = h ++ [sortStrings (heapGet h r)] :=
    heapSet_append_len h _ _
  have hget3 : heapGet (h ++ [sortStrings (heapGet h r)]) h.length
      = sortStrings (heapGet h r) := heapGet_append_len h _
  have hfinal : CreateChannelIDHeap h r
      = (h ++ [sortStrings (heapGet h r)],
         String.intercalate "," (sortStrings (heapGet h r))) := by
    simp only [CreateChannelIDHeap, allocSlice, sortStringsInPlace]
    rw [hcopy, hset, hget2, hset2, hget3]
  constructor
  · intro j hj
    rw [hfinal]
    exact heapGet_append_lt h _ j hj
  · rw [hfinal]
    rfl

/-- Witness heap for C8: the input slice sits at reference 0. -/
def heapW : SliceHeap := [["bob", "alice"], ["z"]]

/-- Witness for C8 at a concrete heap. -/
theorem createChannelID_no_mutation_witness :
    (∀ j, j < heapW.length →
        heapGet (CreateChannelIDHeap heapW 0).1 j = heapGet heapW j)
    ∧ (CreateChannelIDHeap heapW 0).2 = CreateChannelID (heapGet heapW 0) :=
  createChannelID_no_mutation heapW 0 (by decide)

/-- A primitive action of a persistence worker, one tick each: pull a job
from the queue, run one save attempt, write the abandonment log record, or
exit the loop. -/
inductive PAction where
  | dequeue
  | attempt
  | abortLog
  | exit
deriving DecidableEq, Repr

/-- Modelled from the spec: the persistence worker pool's retry cycle under
a graceful stop.  The pool implementation (the worker loops joined by
`ChatService.Stop`, which the integration tests invoke) is not part of the
excerpted source, so this follows the specification text: the stop signal
is observed at the top of each worker's loop and between retry attempts;
in-flight attempts are never interrupted mid-attempt.  `stopAt` is the
tick at which the stop signal becomes visible; the second argument is the
current tick, the third the number of attempts the dequeued job's retry
cycle still needs.  Returns the actions performed and the tick after
them.  A job abandoned between attempts writes an `abortLog` record. -/
def attemptsRun (stopAt : Nat) : Nat → Nat → List PAction × Nat
  | t, 0 => ([], t)
  | t, k + 1 =>
    if k = 0 then ([.attempt], t + 1)
    else if stopAt ≤ t + 1 then ([.attempt, .abortLog], t + 2)
    else
      (.attempt :: (attemptsRun stopAt (t + 1) k).1,
        (attemptsRun stopAt (t + 1) k).2)

/-- Modelled from the spec: whether the job's retry cycle is cut short by
the stop signal (abandoned between attempts). -/
def abandonedIn (stopAt : Nat) : Nat → Nat → Bool
  | _, 0 => false
  | t, k + 1 =>
    if k = 0 then false
    else if stopAt ≤ t + 1 then true
    else abandonedIn stopAt (t + 1) k

/-- Modelled from the spec: one persistence worker's loop over its queue of
jobs (each job given by the attempt count of its retry cycle), observing
the stop signal at the top of each iteration. -/
def workerRunP (stopAt : Nat) : Nat → List Nat → List PAction
  | _, [] => [.exit]
  | t, k :: rest =>
    if stopAt ≤ t then [.exit]
    else .dequeue :: ((attemptsRun stopAt (t + 1) k).1
      ++ workerRunP stopAt (attemptsRun stopAt (t + 1) k).2 rest)

/-- Modelled from the spec: how many of a worker's jobs get abandoned
mid-retry by the stop signal. -/
def abandonedCount (stopAt : Nat) : Nat → List Nat → Nat
  | _, [] => 0
  | t, k :: rest =>
    if stopAt ≤ t then 0
    else (if abandonedIn stopAt (t + 1) k then 1 else 0)
      + abandonedCount stopAt (attemptsRun stopAt (t + 1) k).2 rest

/-- Modelled from the spec: the whole pool, one trace per worker; the stop
call joins every worker, so it returns exactly when every trace has ended
in `exit`. -/
def poolRun (stopAt : Nat) (assignments : List (List Nat)) : List (List PAction) :=
  assignments.map (workerRunP stopAt 0)

theorem attemptsRun_time (stopAt : Nat) : ∀ (k t : Nat),
    (attemptsRun stopAt t k).2 = t + (attemptsRun stopAt t k).1.length := by
  intro k
  induction k with
  | zero => intro t; simp [attemptsRun]
  | succ k ih =>
    intro t
    by_cases hk : k = 0
    · subst hk; simp [attemptsRun]
    · by_cases hstop : stopAt ≤ t + 1
      · simp [attemptsRun, hk, hstop]
      · simp only [attemptsRun, if_neg hk, if_neg hstop, List.length_cons]
        rw [ih (t + 1)]
        omega

theorem attemptsRun_no_dequeue (stopAt : Nat) : ∀ (k t i : Nat),
    (attemptsRun stopAt t k).1.getD i PAction.exit ≠ PAction.dequeue := by
  intro k
  induction k with
  | zero => intro t i; simp [attemptsRun]
  | succ k ih =>
    intro t i
    by_cases hk : k = 0
    · subst hk
      cases i with
      | zero => simp [attemptsRun]
      | succ j => simp [attemptsRun]
    · by_cases hstop : stopAt ≤ t + 1
      · simp only [attemptsRun, if_neg hk, if_pos hstop]
        cases i with
        | zero => simp
        | succ j => cases j <;> simp
      · simp only [attemptsRun, if_neg hk, if_neg hstop]
        cases i with
        | zero => simp
        | succ j =>
          rw [List.getD_cons_succ]
          exact ih (t + 1) j

theorem attemptsRun_attempt_le (stopAt : Nat) : ∀ (k t i : Nat), t ≤ stopAt →
    (attemptsRun stopAt t k).1.getD i PAction.exit = PAction.attempt →
    t + i ≤ stopAt := by
  intro k
  induction k with
  | zero => intro t i _ h; simp [attemptsRun] at h
  | succ k ih =>
    intro t i ht h
    by_cases hk : k = 0
    · subst hk
      cases i with
      | zero => omega
      | succ j => simp [attemptsRun] at h
    · by_cases hstop : stopAt ≤ t + 1
      · simp only [attemptsRun, if_neg hk, if_pos hstop] at h
        cases i with
        | zero => omega
        | succ j =>
          cases j with
          | zero => simp at h
          | succ m => simp at h
      · simp only [attemptsRun, if_neg hk, if_neg hstop] at h
        cases i with
        | zero => omega
        | succ j =>
          rw [List.getD_cons_succ] at h
          have := ih (t + 1) j (by omega) h
          omega

theorem attemptsRun_head (stopAt t k : Nat) (hk : 0 < k) :
    (attemptsRun stopAt t k).1.getD 0 PAction.exit = PAction.attempt := by
  cases k with
  | zero => omega
  | succ k =>
    by_cases hk0 : k = 0
    · subst hk0; simp [attemptsRun]
    · by_cases hstop : stopAt ≤ t + 1
      · simp [attemptsRun, hk0, hstop]
      · simp [attemptsRun, hk0, hstop]

theorem attemptsRun_length_pos (stopAt t k : Nat) (hk : 0 < k) :
    0 < (attemptsRun stopAt t k).1.length := by
  by_contra hlen
  have hnil : (attemptsRun stopAt t k).1 = [] :=
    List.eq_nil_of_length_eq_zero (by omega)
  have h := attemptsRun_head stopAt t k hk
  rw [hnil] at h
  simp at h

theorem attemptsRun_abort_count (stopAt : Nat) : ∀ (k t : Nat),
    (attemptsRun stopAt t k).1.count PAction.abortLog
      = if abandonedIn stopAt t k then 1 else 0 := by
  intro k
  induction k with
  | zero => intro t; simp [attemptsRun, abandonedIn]
  | succ k ih =>
    intro t
    by_cases hk : k = 0
    · subst hk; simp [attemptsRun, abandonedIn]
    · by_cases hstop : stopAt ≤ t + 1
      · simp only [attemptsRun, abandonedIn, if_neg hk, if_pos hstop, if_pos rfl]
        rfl
      · simp only [attemptsRun, abandonedIn, if_neg hk, if_neg hstop]
        rw [List.count_cons]
        rw [ih (t + 1)]
        simp

theorem workerRunP_ends_exit (stopAt : Nat) : ∀ (jobs : List Nat) (t : Nat),
    ∃ pre, workerRunP stopAt t jobs = pre ++ [PAction.exit] := by
  intro jobs
  induction jobs with
  | nil => intro t; exact ⟨[], rfl⟩
  | cons k rest ih =>
    intro t
    by_cases hstop : stopAt ≤ t
    · exact ⟨[], by simp [workerRunP, hstop]⟩
    · obtain ⟨pre, hp⟩ := ih (attemptsRun stopAt (t + 1) k).2
      refine ⟨PAction.dequeue :: (attemptsRun stopAt (t + 1) k).1 ++ pre, ?_⟩
      simp only [workerRunP, if_neg hstop, hp]
      simp [List.append_assoc]

theorem workerRunP_dequeue_lt (stopAt : Nat) : ∀ (jobs : List Nat) (t i : Nat),
    (workerRunP stopAt t jobs).getD i PAction.exit = PAction.dequeue →
    t + i < stopAt := by
  intro jobs
  induction jobs with
  | nil =>
    intro t i h
    cases i with
    | zero => simp [workerRunP] at h
    | succ j => simp [workerRunP] at h
  | cons k rest ih =>
    intro t i h
    by_cases hstop : stopAt ≤ t
    · simp only [workerRunP, if_pos hstop] at h
      cases i with
      | zero => simp at h
      | succ j => simp at h
    · simp only [workerRunP, if_neg hstop] at h
      cases i with
      | zero => omega
      | succ j =>
        rw [List.getD_cons_succ] at h
        by_cases hj : j < (attemptsRun stopAt (t + 1) k).1.length
        · rw [List.getD_append _ _ _ _ hj] at h
          exact absurd h (attemptsRun_no_dequeue stopAt k (t + 1) j)
        · rw [List.getD_append_right _ _ _ _ (Nat.le_of_not_lt hj)] at h
          have hrec := ih (attemptsRun stopAt (t + 1) k).2 _ h
          have htime := attemptsRun_time stopAt k (t + 1)
          omega

theorem workerRunP_attempt_le (stopAt : Nat) : ∀ (jobs : List Nat) (t i : Nat),
    (workerRunP stopAt t jobs).getD i PAction.exit = PAction.attempt →
    t + i ≤ stopAt := by
  intro jobs
  induction jobs with
  | nil =>
    intro t i h
    cases i with
    | zero => simp [workerRunP] at h
    | succ j => simp [workerRunP] at h
  | cons k rest ih =>
    intro t i h
    by_cases hstop : stopAt ≤ t
    · simp only [workerRunP, if_pos hstop] at h
      cases i with
      | zero => simp at h
      | succ j => simp at h
    · simp only [workerRunP, if_neg hstop] at h
      cases i with
      | zero => simp at h
      | succ j =>
        rw [List.getD_cons_succ] at h
        by_cases hj : j < (attemptsRun stopAt (t + 1) k).1.length
        · rw [List.getD_append _ _ _ _ hj] at h
          have := attemptsRun_attempt_le stopAt k (t + 1) j (by omega) h
          omega
        · rw [List.getD_append_right _ _ _ _ (Nat.le_of_not_lt hj)] at h
          have hrec := ih (attemptsRun stopAt (t + 1) k).2 _ h
          have htime := attemptsRun_time stopAt k (t + 1)
          omega

theorem workerRunP_dequeue_attempt (stopAt : Nat) : ∀ (jobs : List Nat),
    (∀ k ∈ jobs, 0 < k) → ∀ (t i : Nat),
    (workerRunP stopAt t jobs).getD i PAction.exit = PAction.dequeue →
    (workerRunP stopAt t jobs).getD (i + 1) PAction.exit = PAction.attempt := by
  intro jobs
  induction jobs with
  | nil =>
    intro _ t i h
    cases i with
    | zero => simp [workerRunP] at h
    | succ j => simp [workerRunP] at h
  | cons k rest ih =>
    intro hpos t i h
    have hk : 0 < k := hpos k (List.mem_cons_self _ _)
    have hrest : ∀ m ∈ rest, 0 < m :=
      fun m hm => hpos m (List.mem_cons_of_mem _ hm)
    by_cases hstop : stopAt ≤ t
    · simp only [workerRunP, if_pos hstop] at h
      cases i with
      | zero => simp at h
      | succ j => simp at h
    · simp only [workerRunP, if_neg hstop] at h ⊢
      cases i with
      | zero =>
        rw [List.getD_cons_succ,
          List.getD_append _ _ _ _ (attemptsRun_length_pos stopAt (t + 1) k hk)]
        exact attemptsRun_head stopAt (t + 1) k hk
      | succ j =>
        rw [List.getD_cons_succ] at h
        rw [List.getD_cons_succ]
        by_cases hj : j < (attemptsRun stopAt (t + 1) k).1.length
        · rw [List.getD_append _ _ _ _ hj] at h
          exact absurd h (attemptsRun_no_dequeue stopAt k (t + 1) j)
        · rw [List.getD_append_right _ _ _ _ (Nat.le_of_not_lt hj)] at h
          have hrec := ih hrest (attemptsRun stopAt (t + 1) k).2 _ h
          rw [List.getD_append_right _ _ _ _
            (by omega : (attemptsRun stopAt (t + 1) k).1.length ≤ j + 1)]
          have hidx : j + 1 - (attemptsRun stopAt (t + 1) k).1.length
              = (j - (attemptsRun stopAt (t + 1) k).1.length) + 1 := by omega
          rw [hidx]
          exact hrec

theorem workerRunP_abort_count (stopAt : Nat) : ∀ (jobs : List Nat) (t : Nat),
    (workerRunP stopAt t jobs).count PAction.abortLog
      = abandonedCount stopAt t jobs := by
  intro jobs
  induction jobs with
  | nil => intro t; simp [workerRunP, abandonedCount]
  | cons k rest ih =>
    intro t
    by_cases hstop : stopAt ≤ t
    · simp [workerRunP, abandonedCount, hstop]
    · simp only [workerRunP, abandonedCount, if_neg hstop]
      rw [List.count_cons, List.count_append]
      rw [attemptsRun_abort_count stopAt k (t + 1), ih]
      simp [Nat.add_comm]

/-- C9 (modelled from the spec; the pool and its stop are not in the
excerpted source): once the stop signal is visible at tick `stopAt`, every
persistence worker exits — the joining stop call, modelled by `poolRun`,
returns only after every worker's trace has ended in `exit`; no dequeue
happens at or after `stopAt` and no attempt after `stopAt` (only the one
in-flight attempt may land on the stop tick, and it is finished: every
dequeue is immediately followed by its job's first attempt); and every job
abandoned mid-retry leaves an abandonment log record — the `abortLog`
count of the trace equals the number of abandoned jobs, so none is dropped
silently. -/
theorem persistence_pool_graceful_stop (stopAt : Nat)
    (assignments : List (List Nat))
    (hpos : ∀ js ∈ assignments, ∀ k ∈ js, 0 < k) :
    (∀ tr ∈ poolRun stopAt assignments, ∃ pre, tr = pre ++ [PAction.exit])
    ∧ ∀ js ∈ assignments,
        (∀ i, (workerRunP stopAt 0 js).getD i PAction.exit = PAction.dequeue
          → i < stopAt)
        ∧ (∀ i, (workerRunP stopAt 0 js).getD i PAction.exit = PAction.attempt
          → i ≤ stopAt)
        ∧ (∀ i, (workerRunP stopAt 0 js).getD i PAction.exit = PAction.dequeue
          → (workerRunP stopAt 0 js).getD (i + 1) PAction.exit
            = PAction.attempt)
        ∧ (workerRunP stopAt 0 js).count PAction.abortLog
          = abandonedCount stopAt 0 js := by
  constructor
  · intro tr htr
    obtain ⟨js, _, hjs⟩ := List.mem_map.1 htr
    rw [← hjs]
    obtain ⟨pre, hp⟩ := workerRunP_ends_exit stopAt js 0
    exact ⟨pre, hp⟩
  · intro js hjs
    refine ⟨?_, ?_, ?_, workerRunP_abort_count stopAt js 0⟩
    · intro i h
      have := workerRunP_dequeue_lt stopAt js 0 i h
      omega
    · intro i h
      have := workerRunP_attempt_le stopAt js 0 i h
      omega
    · exact workerRunP_dequeue_attempt stopAt js (hpos js hjs) 0

/-- Witness for C9: stop at tick 3, two workers with small retry
budgets. -/
theorem persistence_pool_graceful_stop_witness :
    (∀ tr ∈ poolRun 3 [[2, 2], [1]], ∃ pre, tr = pre ++ [PAction.exit])
    ∧ ∀ js ∈ ([[2, 2], [1]] : List (List Nat)),
        (∀ i, (workerRunP 3 0 js).getD i PAction.exit = PAction.dequeue
          → i < 3)
        ∧ (∀ i, (workerRunP 3 0 js).getD i PAction.exit = PAction.attempt
          → i ≤ 3)
        ∧ (∀ i, (workerRunP 3 0 js).getD i PAction.exit = PAction.dequeue
          → (workerRunP 3 0 js).getD (i + 1) PAction.exit = PAction.attempt)
        ∧ (workerRunP 3 0 js).count PAction.abortLog
          = abandonedCount 3 0 js :=
  persistence_pool_graceful_stop 3 [[2, 2], [1]] (by decide)

end ChatCore
